import Mathlib

/-!
# Verification of the WardSpatial segmentation pipeline (`segmen.py`)

The repository's only source file, `segmen.py`, is a Streamlit front-end whose
computational core is a connectivity-constrained agglomerative (Ward) clustering
run: it cleans the uploaded rows (`df.dropna` over `trx_count`, `latitude`,
`longitude`), projects coordinates, standardizes the attribute triple
(`proj_x`, `proj_y`, `trx_count`) with `StandardScaler`, builds a k-nearest-
neighbour connectivity graph with `libpysal.weights.KNN.from_dataframe` on the
(unscaled) projected geometry, and runs `spopt.region.WardSpatial(...,
n_clusters=n_territories).solve()`, assigning `model_ward.labels_` back to the
retained rows.

The clustering engine, the KNN graph builder and the scaler live in library
code outside this repository, so they are modelled here from the specification
(each such definition carries a `Modelled from the spec:` doc comment).  The
row-cleaning and label-assignment pipeline is embedded directly from
`segmen.py`.

Numbers are exact rationals, represented by unnormalized integer fractions
(`Frac`) so that every definition evaluates inside the kernel.
-/

/-- Exact rational arithmetic via unnormalized fractions.  The denominator is
stored as `pden + 1`, so it is positive by type, and the order comparisons by
cross-multiplication are the usual rational ones. -/
structure Frac where
  num : Int
  pden : Nat
deriving DecidableEq, Repr

/-- The (always positive) denominator. -/
def Frac.den (x : Frac) : Int := ((x.pden + 1 : Nat) : Int)

def Frac.ofInt (n : Int) : Frac := ⟨n, 0⟩

def Frac.add (x y : Frac) : Frac :=
  ⟨x.num * y.den + y.num * x.den, (x.pden + 1) * (y.pden + 1) - 1⟩

def Frac.sub (x y : Frac) : Frac :=
  ⟨x.num * y.den - y.num * x.den, (x.pden + 1) * (y.pden + 1) - 1⟩

def Frac.mul (x y : Frac) : Frac :=
  ⟨x.num * y.num, (x.pden + 1) * (y.pden + 1) - 1⟩

/-- Division by a natural number; used only with positive divisors (cluster
sizes, column counts), where it is exact. -/
def Frac.divNat (x : Frac) (n : Nat) : Frac := ⟨x.num, (x.pden + 1) * n - 1⟩

/-- Division by a fraction; the divisor's sign moves into the numerator so
the stored denominator stays positive.  Used only with nonzero divisors
(the variance denominators of the scaler model), where it is exact. -/
def Frac.div (x y : Frac) : Frac :=
  ⟨x.num * y.den * y.num.sign, (x.pden + 1) * y.num.natAbs - 1⟩

/-- Semantic strict order on fractions (cross multiplication; denominators
are positive by type). -/
def Frac.blt (x y : Frac) : Bool := decide (x.num * y.den < y.num * x.den)

/-- Semantic equality on fractions (cross multiplication). -/
def Frac.beq (x y : Frac) : Bool := decide (x.num * y.den = y.num * x.den)

/-- The rational value a `Frac` denotes (used in statements and proofs). -/
def Frac.toRat (x : Frac) : ℚ := (x.num : ℚ) / (x.den : ℚ)

def fracSum (l : List Frac) : Frac := l.foldl Frac.add (Frac.ofInt 0)

/-! ## Adjacency graphs

The engine consumes the connectivity graph as a list of edges; a pair of
points is adjacent when either orientation of the edge is listed, so the
relation is symmetric by construction (the spec's `AdjacencyGraph` is
"symmetric by construction"). -/

/-- Point adjacency induced by an edge list, symmetrized. -/
def adjB (edges : List (Nat × Nat)) (p q : Nat) : Bool :=
  edges.any (fun e => (e.1 == p && e.2 == q) || (e.1 == q && e.2 == p))

/-! ## Partition state

The engine's partition state is a list `labels` of length `n`, mapping the
point with index `i` to the identifier of its current cluster
(`labels.getD i 0`).  Cluster identifiers are point indices: initially every
point is its own singleton cluster (`labels = List.range n`), and a merge
relabels the absorbed cluster to the surviving (lower) identifier. -/

/-- Members of cluster `c`: the point indices currently labelled `c`. -/
def members (labels : List Nat) (c : Nat) : List Nat :=
  (List.range labels.length).filter (fun i => labels.getD i 0 == c)

/-- The identifiers of the active clusters. -/
def clusterIds (labels : List Nat) : List Nat := labels.dedup

/-- The number of active clusters: the number of distinct labels. -/
def activeCount (labels : List Nat) : Nat := labels.toFinset.card

/-- Two clusters are adjacent iff some pair of their respective members is
adjacent in the point graph (spec invariant 2). -/
def clustersAdjacent (edges : List (Nat × Nat)) (labels : List Nat) (a b : Nat) : Bool :=
  (members labels a).any (fun i => (members labels b).any (fun j => adjB edges i j))

/-! ## Cluster statistics and Ward cost

Modelled from the spec: the Cluster Statistics Store (spopt's internals are
not in this repository).  Ward cost for clusters of sizes `n_a`, `n_b` with
centroids `c_a`, `c_b` is `(n_a·n_b/(n_a+n_b))·‖c_a − c_b‖²`, computed from
counts and centroids only. -/

def vsub (v w : List Frac) : List Frac := List.zipWith Frac.sub v w

def vsum : List (List Frac) → List Frac
  | [] => []
  | v :: vs => vs.foldl (fun acc w => List.zipWith Frac.add acc w) v

def sqNorm (v : List Frac) : Frac :=
  v.foldl (fun s x => Frac.add s (Frac.mul x x)) (Frac.ofInt 0)

/-- Centroid (mean feature vector) of cluster `c`. -/
def centroid (feats : List (List Frac)) (labels : List Nat) (c : Nat) : List Frac :=
  let ms := members labels c
  (vsum (ms.map (fun i => feats.getD i []))).map (fun x => Frac.divNat x ms.length)

/-- Modelled from the spec: Ward merge cost
`(n_a·n_b/(n_a+n_b))·‖c_a − c_b‖²`. -/
def wardCost (feats : List (List Frac)) (labels : List Nat) (a b : Nat) : Frac :=
  let na := (members labels a).length
  let nb := (members labels b).length
  Frac.mul (Frac.divNat (Frac.ofInt ((na * nb : Nat) : Int)) (na + nb))
    (sqNorm (vsub (centroid feats labels a) (centroid feats labels b)))

/-! ## The constrained clustering engine

Modelled from the spec: `spopt.region.WardSpatial.solve` is library code.
Only clusters connected by at least one adjacency edge may merge; among
eligible pairs the engine merges the pair of minimum Ward cost, ties broken
by ascending pair of cluster ids; the lower-numbered id survives a merge. -/

/-- The currently eligible merge candidates: unordered pairs of distinct
active clusters joined by at least one adjacency edge, represented with the
smaller id first. -/
def eligiblePairs (edges : List (Nat × Nat)) (labels : List Nat) : List (Nat × Nat) :=
  (clusterIds labels).flatMap (fun a =>
    ((clusterIds labels).filter
        (fun b => decide (a < b) && clustersAdjacent edges labels a b)).map (fun b => (a, b)))

/-- Priority key of a candidate pair: Ward cost first, then the id pair. -/
def candKey (feats : List (List Frac)) (labels : List Nat) (p : Nat × Nat) :
    Frac × Nat × Nat :=
  (wardCost feats labels p.1 p.2, p.1, p.2)

/-- Strict lexicographic order on candidate keys: lower Ward cost wins, ties
broken by ascending pair of cluster ids. -/
def keyLt (x y : Frac × Nat × Nat) : Bool :=
  Frac.blt x.1 y.1 ||
    (Frac.beq x.1 y.1 &&
      (decide (x.2.1 < y.2.1) || (x.2.1 == y.2.1 && decide (x.2.2 < y.2.2))))

/-- Semantic value of a candidate priority key: Ward cost first, then the
ascending id pair, lexicographically. -/
def keyVal (x : Frac × Nat × Nat) : Lex (ℚ × Lex (Nat × Nat)) :=
  toLex (x.1.toRat, toLex (x.2.1, x.2.2))

/-- Selects the element of the list that is minimal for `lt` (the earliest
such element, which for the strict order `keyLt` is the tie-break winner). -/
def pickMinBy (lt : (Nat × Nat) → (Nat × Nat) → Bool) :
    List (Nat × Nat) → Option (Nat × Nat)
  | [] => none
  | p :: ps => some (ps.foldl (fun q r => if lt r q then r else q) p)

/-- The lowest-cost valid candidate, ties broken by ascending id pair. -/
def bestCandidate (edges : List (Nat × Nat)) (feats : List (List Frac))
    (labels : List Nat) : Option (Nat × Nat) :=
  pickMinBy (fun p q => keyLt (candKey feats labels p) (candKey feats labels q))
    (eligiblePairs edges labels)

/-- Merge cluster `b` into cluster `a` (the lower-numbered id survives). -/
def mergeLabels (labels : List Nat) (a b : Nat) : List Nat :=
  labels.map (fun c => if c = b then a else c)

/-- Terminal states of the engine: target reached, or exhausted (no legal
merge remains while the active count still exceeds the target).  Both carry
the partition; `exhausted` also reports the achieved cluster count.  The
merge log records (surviving id, absorbed id, Ward cost). -/
inductive SolveResult where
  | reached (labels : List Nat) (log : List (Nat × Nat × Frac))
  | exhausted (labels : List Nat) (achieved : Nat) (log : List (Nat × Nat × Frac))
deriving DecidableEq, Repr

/-- Modelled from the spec: the merging loop of the Constrained Clustering
Engine (`WardSpatial.solve`).  Stops when the active cluster count equals the
target, or when no eligible pair remains.  `fuel` bounds the recursion; runs
start with `fuel = n`, which §4.3's one-merge-per-step invariant makes
sufficient. -/
def solveLoop (target : Nat) (edges : List (Nat × Nat)) (feats : List (List Frac)) :
    Nat → List Nat → List (Nat × Nat × Frac) → SolveResult
  | 0, labels, log => .exhausted labels (activeCount labels) log
  | fuel + 1, labels, log =>
    if activeCount labels = target then .reached labels log
    else
      match bestCandidate edges feats labels with
      | none => .exhausted labels (activeCount labels) log
      | some (a, b) =>
          solveLoop target edges feats fuel (mergeLabels labels a b)
            (log ++ [(a, b, wardCost feats labels a b)])

/-- The partition carried by a terminal state. -/
def finalLabels : SolveResult → List Nat
  | .reached labels _ => labels
  | .exhausted labels _ _ => labels

/-! ## The KNN adjacency graph builder

Modelled from the spec: `libpysal.weights.KNN.from_dataframe` is library
code.  For each point it selects the `k` closest other points by Euclidean
distance on the projected coordinates, ties broken by ascending point
identifier, and the resulting relation is symmetrized. -/

def fracZero : Frac := Frac.ofInt 0

/-- Squared Euclidean distance between two planar points. -/
def sqDistPt (p q : Frac × Frac) : Frac :=
  Frac.add (Frac.mul (Frac.sub p.1 q.1) (Frac.sub p.1 q.1))
    (Frac.mul (Frac.sub p.2 q.2) (Frac.sub p.2 q.2))

/-- Neighbour-candidate order around point `i`: by squared distance, ties by
ascending point identifier. -/
def nbKeyLt (coords : List (Frac × Frac)) (i j1 j2 : Nat) : Bool :=
  let d1 := sqDistPt (coords.getD i (fracZero, fracZero)) (coords.getD j1 (fracZero, fracZero))
  let d2 := sqDistPt (coords.getD i (fracZero, fracZero)) (coords.getD j2 (fracZero, fracZero))
  Frac.blt d1 d2 || (Frac.beq d1 d2 && decide (j1 < j2))

def insertAsc (lt : Nat → Nat → Bool) (x : Nat) : List Nat → List Nat
  | [] => [x]
  | y :: ys => if lt x y then x :: y :: ys else y :: insertAsc lt x ys

/-- Insertion sort by a strict order. -/
def sortAsc (lt : Nat → Nat → Bool) (l : List Nat) : List Nat :=
  l.foldr (insertAsc lt) []

/-- Modelled from the spec: the raw (asymmetric) k-nearest-neighbour
relation: the `k` closest other points of `i`, ties by ascending id. -/
def knnRaw (coords : List (Frac × Frac)) (k i : Nat) : List Nat :=
  (sortAsc (nbKeyLt coords i) ((List.range coords.length).filter (fun j => j != i))).take k

/-- Symmetrized neighbour set of `i`: points raw-near `i` or having `i`
raw-near them. -/
def knnNeighbors (coords : List (Frac × Frac)) (k i : Nat) : List Nat :=
  (List.range coords.length).filter
    (fun j => (knnRaw coords k i).contains j || (knnRaw coords k j).contains i)

/-- The AdjacencyGraph produced by the builder: every point indexed in
`coords` appears as a key, mapped to its symmetrized neighbour set. -/
def knnGraph (coords : List (Frac × Frac)) (k : Nat) : List (Nat × List Nat) :=
  (List.range coords.length).map (fun i => (i, knnNeighbors coords k i))

/-- The same graph as an edge list for the engine (`adjB` symmetrizes, so
listing each raw directed pair suffices). -/
def knnEdges (coords : List (Frac × Frac)) (k : Nat) : List (Nat × Nat) :=
  (List.range coords.length).flatMap (fun i => (knnRaw coords k i).map (fun j => (i, j)))

/-! ## Errors and the full engine run -/

/-- Modelled from the spec (§7): the error taxonomy relevant to the engine.
`disconnectedGraph` carries the achieved partition and cluster count. -/
inductive WardError where
  | invalidParameter
  | insufficientData
  | disconnectedGraph (achievedLabels : List Nat) (achievedCount : Nat)
deriving DecidableEq, Repr

/-- Reading off the terminal state: a reached target yields the partition
and merge log; exhaustion yields `DisconnectedGraphError` carrying the
achieved partition and achieved cluster count. -/
def wardResult : SolveResult → Except WardError (List Nat × List (Nat × Nat × Frac))
  | .reached labels log => .ok (labels, log)
  | .exhausted labels achieved _ => .error (.disconnectedGraph labels achieved)

/-- Modelled from the spec: construction plus solve.  Parameters are
validated first (`InvalidParameterError` iff `targetClusters ≤ 0`,
`targetClusters > pointCount`, or `neighborCount` outside
`[1, pointCount−1]`), then the data minimum, before any merging begins; then
the KNN graph is built and the engine is driven to a terminal state. -/
def ward_run (coords : List (Frac × Frac)) (feats : List (List Frac))
    (target k : Nat) : Except WardError (List Nat × List (Nat × Nat × Frac)) :=
  if target = 0 ∨ coords.length < target ∨ k = 0 ∨ coords.length ≤ k then
    .error .invalidParameter
  else if coords.length < 2 then .error .insufficientData
  else
    wardResult (solveLoop target (knnEdges coords k) feats coords.length
      (List.range coords.length) [])

/-! ## The application pipeline around the engine (from `segmen.py`)

Embedded from the source: an uploaded row carries `hcp_id`, `trx_count`,
`latitude`, `longitude` (the three numeric columns possibly missing);
`df_cleaned = df.dropna(subset=['trx_count','latitude','longitude'])`
(line 67) retains exactly the rows with all three present;
`if len(df_cleaned) < 5: st.error(...); st.stop()` (lines 72–74) halts on
fewer than 5 valid rows; `model_ward.labels_` is assigned back to exactly
the retained rows (line 146).  Coordinate reprojection (EPSG:4326→5070) is an
out-of-scope external collaborator (spec §1) and is modelled as the
identity on the coordinate pair. -/

structure Row where
  hcp_id : Nat
  trx_count : Option Frac
  latitude : Option Frac
  longitude : Option Frac
deriving DecidableEq, Repr

/-- A row survives `dropna` iff all three core numeric columns are present. -/
def rowValid (r : Row) : Bool :=
  r.trx_count.isSome && r.latitude.isSome && r.longitude.isSome

/-- `df_cleaned = df.dropna(subset=['trx_count','latitude','longitude'])`. -/
def dfCleaned (rows : List Row) : List Row := rows.filter rowValid

/-- Coordinates of a cleaned row (reprojection modelled as identity). -/
def rowCoord (r : Row) : Frac × Frac :=
  (r.longitude.getD fracZero, r.latitude.getD fracZero)

/-- Attribute triple of a cleaned row: projected x, projected y, trx_count
(`attrs_for_ward = ['proj_x','proj_y','trx_count']`, line 106). -/
def rowFeat (r : Row) : List Frac :=
  [r.longitude.getD fracZero, r.latitude.getD fracZero, r.trx_count.getD fracZero]

/-- Pairs each retained row with its engine-produced label (`gdf.loc[...,
'cluster'] = model_ward.labels_`, line 146), or propagates the error. -/
def attachLabels (cleaned : List Row) :
    Except WardError (List Nat × List (Nat × Nat × Frac)) →
      Except WardError (List (Row × Nat))
  | .ok (labels, _) => .ok (cleaned.zip labels)
  | .error e => .error e

/-- The app pipeline of `segmen.py`: drop rows with missing core values,
halt when fewer than 5 valid rows remain, run the engine on the retained
rows, and pair each retained row with its cluster label. -/
def segmentApp (rows : List Row) (target k : Nat) :
    Except WardError (List (Row × Nat)) :=
  if (dfCleaned rows).length < 5 then .error .insufficientData
  else
    attachLabels (dfCleaned rows)
      (ward_run ((dfCleaned rows).map rowCoord) ((dfCleaned rows).map rowFeat)
        target k)

/-! ## The scaler model and the two distance spaces (claim C9)

Embedded from the source: the attributes handed to `WardSpatial` are the
`StandardScaler` outputs of `['proj_x','proj_y','trx_count']` (lines
104–121), while the KNN connectivity graph is built from the unscaled
projected geometry (line 128).  `StandardScaler` (modelled from the spec:
zero mean, unit variance per column, population variance; a zero-variance
column is left unscaled, matching `scale_ = 1`) divides each centred column
by its standard deviation, so squared distances in the scaled feature space
are sums of squared coordinate differences divided by the column
variances — which stays inside exact rational arithmetic. -/

def colMean (xs : List Frac) : Frac := Frac.divNat (fracSum xs) xs.length

/-- Population variance of a column (`StandardScaler` uses `ddof = 0`). -/
def colVar (xs : List Frac) : Frac :=
  Frac.divNat
    (fracSum (xs.map (fun x => Frac.mul (Frac.sub x (colMean xs)) (Frac.sub x (colMean xs)))))
    xs.length

/-- The divisor actually applied per column: the variance, except that a
zero-variance column is divided by 1 (sklearn sets `scale_ = 1` there). -/
def scaleDenom (xs : List Frac) : Frac :=
  if (colVar xs).num = 0 then Frac.ofInt 1 else colVar xs

/-- Squared Euclidean distance between points `i` and `j` in the scaled
feature space: per column, squared difference over the column variance. -/
def scaledSqDist (cols : List (List Frac)) (i j : Nat) : Frac :=
  fracSum (cols.map (fun col =>
    Frac.div
      (Frac.mul (Frac.sub (col.getD i fracZero) (col.getD j fracZero))
        (Frac.sub (col.getD i fracZero) (col.getD j fracZero)))
      (scaleDenom col)))

/-- Order on candidate neighbours of `i` in the scaled feature space
(distance, then ascending id). -/
def featKeyLt (cols : List (List Frac)) (i j1 j2 : Nat) : Bool :=
  Frac.blt (scaledSqDist cols i j1) (scaledSqDist cols i j2) ||
    (Frac.beq (scaledSqDist cols i j1) (scaledSqDist cols i j2) && decide (j1 < j2))

/-- The nearest other point of `i` in the scaled (clustering) feature
space. -/
def nearestByScaled (cols : List (List Frac)) (n i : Nat) : Option Nat :=
  (sortAsc (featKeyLt cols i) ((List.range n).filter (fun j => j != i))).head?

/-! ## Connectivity and the engine partition -/

/-- Reachability between points through adjacency edges whose endpoints both
satisfy `S` (connectivity inside the vertex set `S`). -/
def ReachIn (edges : List (Nat × Nat)) (S : Nat → Prop) : Nat → Nat → Prop :=
  Relation.ReflTransGen (fun p q => S p ∧ S q ∧ adjB edges p q = true)

/-- Every cluster of the partition is connected in the adjacency graph: any
two points with the same label are joined by a path that stays inside the
cluster. -/
def clusterConnected (edges : List (Nat × Nat)) (labels : List Nat) : Prop :=
  ∀ i j, i < labels.length → j < labels.length →
    labels.getD i 0 = labels.getD j 0 →
    ReachIn edges
      (fun p => p < labels.length ∧ labels.getD p 0 = labels.getD i 0) i j

/-- The partition produced by a full engine run: singletons at
initialization, merges driven to a terminal state (`fuel = n` covers every
possible merge, since each merge is one step and at most `n − 1` merges can
occur). -/
def enginePartition (edges : List (Nat × Nat)) (feats : List (List Frac))
    (target n : Nat) : List Nat :=
  finalLabels (solveLoop target edges feats n (List.range n) [])

/-- `g` is a separation of the first `n` points: adjacent points always get
the same `g`-value.  The number of distinct `g`-values on the points is then
a lower bound on the number of connected components of the graph (a witness
that the graph has at least that many components). -/
def respectsEdges (edges : List (Nat × Nat)) (n : Nat) (g : Nat → Nat) : Prop :=
  ∀ p ∈ List.range n, ∀ q ∈ List.range n, adjB edges p q = true → g p = g q

/-- `g` is constant on every cluster of the partition. -/
def labelConst (g : Nat → Nat) (labels : List Nat) : Prop :=
  ∀ p q, p < labels.length → q < labels.length →
    labels.getD p 0 = labels.getD q 0 → g p = g q

/-! ## Concrete data for the executable checks

Two groups of points on a line, far apart: with one neighbour each the KNN
graph splits into two connected components. -/

def demoCoords : List (Frac × Frac) :=
  [(Frac.ofInt 0, Frac.ofInt 0), (Frac.ofInt 1, Frac.ofInt 0),
    (Frac.ofInt 10, Frac.ofInt 0), (Frac.ofInt 11, Frac.ofInt 0)]

def demoFeats : List (List Frac) :=
  [[Frac.ofInt 0], [Frac.ofInt 1], [Frac.ofInt 10], [Frac.ofInt 11]]

/-- Three collinear points for claim C9: x-coordinates 0, 3, 4, a constant
y-column, and transaction counts 0, 100, 0. -/
def c9coords : List (Frac × Frac) :=
  [(Frac.ofInt 0, Frac.ofInt 0), (Frac.ofInt 3, Frac.ofInt 0),
    (Frac.ofInt 4, Frac.ofInt 0)]

def c9trx : List Frac := [Frac.ofInt 0, Frac.ofInt 100, Frac.ofInt 0]

/-- The attribute columns handed to the Ward criterion for the C9 data:
projected x, projected y, trx_count. -/
def c9cols : List (List Frac) :=
  [c9coords.map Prod.fst, c9coords.map Prod.snd, c9trx]

/-- Uploaded rows: six complete rows on a line plus one row with a missing
`trx_count`. -/
def demoRows : List Row :=
  [⟨0, some (Frac.ofInt 0), some (Frac.ofInt 0), some (Frac.ofInt 0)⟩,
    ⟨1, some (Frac.ofInt 0), some (Frac.ofInt 0), some (Frac.ofInt 1)⟩,
    ⟨2, some (Frac.ofInt 0), some (Frac.ofInt 0), some (Frac.ofInt 2)⟩,
    ⟨3, some (Frac.ofInt 0), some (Frac.ofInt 0), some (Frac.ofInt 10)⟩,
    ⟨4, some (Frac.ofInt 0), some (Frac.ofInt 0), some (Frac.ofInt 11)⟩,
    ⟨5, some (Frac.ofInt 0), some (Frac.ofInt 0), some (Frac.ofInt 12)⟩,
    ⟨99, none, some (Frac.ofInt 0), some (Frac.ofInt 5)⟩]

/-! ## Semantics of `Frac` comparisons

`Frac.blt`/`Frac.beq` are interpreted into `ℚ`, and the candidate key order
into the lexicographic order on `ℚ ×ₗ (ℕ ×ₗ ℕ)`, from which transitivity and
totality of the priority order are inherited. -/

theorem Frac.den_pos (x : Frac) : (0 : Int) < x.den := by
  rw [Frac.den]
  exact_mod_cast Nat.succ_pos x.pden

theorem Frac.denQ_pos (x : Frac) : (0 : ℚ) < (x.den : ℚ) := by
  exact_mod_cast x.den_pos

theorem Frac.blt_iff (x y : Frac) : x.blt y = true ↔ x.toRat < y.toRat := by
  rw [Frac.blt, decide_eq_true_eq, Frac.toRat, Frac.toRat,
    div_lt_div_iff₀ x.denQ_pos y.denQ_pos]
  constructor
  · intro h; exact_mod_cast h
  · intro h; exact_mod_cast h

theorem Frac.beq_iff (x y : Frac) : x.beq y = true ↔ x.toRat = y.toRat := by
  rw [Frac.beq, decide_eq_true_eq, Frac.toRat, Frac.toRat,
    div_eq_div_iff (ne_of_gt x.denQ_pos) (ne_of_gt y.denQ_pos)]
  constructor
  · intro h; exact_mod_cast h
  · intro h; exact_mod_cast h

theorem keyLt_iff (x y : Frac × Nat × Nat) :
    keyLt x y = true ↔ keyVal x < keyVal y := by
  rw [keyLt, keyVal, keyVal, Prod.Lex.lt_iff]
  simp only [Bool.or_eq_true, Bool.and_eq_true, decide_eq_true_eq, beq_iff_eq,
    Frac.blt_iff, Frac.beq_iff, Prod.Lex.lt_iff]

/-! ## Lemmas about the partition state -/

theorem mem_members {labels : List Nat} {c i : Nat} :
    i ∈ members labels c ↔ i < labels.length ∧ labels.getD i 0 = c := by
  simp [members, List.mem_filter, List.mem_range]

theorem clustersAdjacent_iff {edges : List (Nat × Nat)} {labels : List Nat} {a b : Nat} :
    clustersAdjacent edges labels a b = true ↔
      ∃ i, (i < labels.length ∧ labels.getD i 0 = a) ∧
        ∃ j, (j < labels.length ∧ labels.getD j 0 = b) ∧ adjB edges i j = true := by
  simp [clustersAdjacent, List.any_eq_true, mem_members]

theorem adjB_symm (edges : List (Nat × Nat)) (p q : Nat) :
    adjB edges p q = adjB edges q p := by
  simp only [adjB]
  congr 1
  funext e
  rw [Bool.or_comm]

theorem mem_eligiblePairs {edges : List (Nat × Nat)} {labels : List Nat} {a b : Nat} :
    (a, b) ∈ eligiblePairs edges labels ↔
      a ∈ labels.dedup ∧ b ∈ labels.dedup ∧ a < b ∧
        clustersAdjacent edges labels a b = true := by
  simp only [eligiblePairs, clusterIds, List.mem_flatMap, List.mem_map,
    List.mem_filter, Bool.and_eq_true, decide_eq_true_eq, Prod.mk.injEq]
  constructor
  · rintro ⟨a', ha', b', ⟨hb', hlt, hadj⟩, rfl, rfl⟩
    exact ⟨ha', hb', hlt, hadj⟩
  · rintro ⟨ha, hb, hlt, hadj⟩
    exact ⟨a, ha, b, ⟨hb, hlt, hadj⟩, rfl, rfl⟩

theorem mergeLabels_length (labels : List Nat) (a b : Nat) :
    (mergeLabels labels a b).length = labels.length := by
  simp [mergeLabels]

theorem mergeLabels_getD {labels : List Nat} {p : Nat} (h : p < labels.length)
    (a b : Nat) :
    (mergeLabels labels a b).getD p 0 =
      if labels.getD p 0 = b then a else labels.getD p 0 := by
  rw [mergeLabels, List.getD_eq_getElem?_getD, List.getElem?_map,
    List.getElem?_eq_getElem h, List.getD_eq_getElem?_getD,
    List.getElem?_eq_getElem h]
  rfl

theorem getD_range {n i : Nat} (h : i < n) : (List.range n).getD i 0 = i := by
  rw [List.getD_eq_getElem?_getD, List.getElem?_range h]
  rfl

theorem getD_mem {labels : List Nat} {i : Nat} (h : i < labels.length) :
    labels.getD i 0 ∈ labels := by
  rw [List.getD_eq_getElem?_getD, List.getElem?_eq_getElem h]
  exact List.getElem_mem h

/-- A merge removes exactly one active cluster: the absorbed identifier. -/
theorem activeCount_mergeLabels {labels : List Nat} {a b : Nat}
    (ha : a ∈ labels) (hb : b ∈ labels) (hne : a ≠ b) :
    activeCount (mergeLabels labels a b) = activeCount labels - 1 := by
  have himg : (labels.map (fun c => if c = b then a else c)).toFinset =
      labels.toFinset.erase b := by
    ext x
    simp only [List.mem_toFinset, List.mem_map, Finset.mem_erase]
    constructor
    · rintro ⟨y, hy, rfl⟩
      by_cases h : y = b
      · simp only [h, if_pos rfl]
        exact ⟨hne, ha⟩
      · simp only [if_neg h]
        exact ⟨h, hy⟩
    · rintro ⟨hxb, hx⟩
      exact ⟨x, hx, if_neg hxb⟩
  rw [activeCount, activeCount, mergeLabels, himg,
    Finset.card_erase_of_mem (List.mem_toFinset.mpr hb)]

theorem activeCount_pos {labels : List Nat} (h : labels ≠ []) :
    1 ≤ activeCount labels := by
  match labels, h with
  | x :: xs, _ =>
    exact Finset.card_pos.mpr ⟨x, List.mem_toFinset.mpr (List.mem_cons_self x xs)⟩

theorem activeCount_range (n : Nat) : activeCount (List.range n) = n := by
  rw [activeCount, List.toFinset_card_of_nodup (List.nodup_range n), List.length_range]

/-! ## The fold that selects the minimum candidate -/

theorem foldl_min_spec {κ : Type} [LinearOrder κ] (m : Nat × Nat → κ)
    (lt : Nat × Nat → Nat × Nat → Bool)
    (hlt : ∀ p q, lt p q = true ↔ m p < m q) :
    ∀ (ps : List (Nat × Nat)) (p : Nat × Nat),
      (ps.foldl (fun q r => if lt r q then r else q) p) ∈ p :: ps ∧
        ∀ q ∈ p :: ps, ¬ m q < m (ps.foldl (fun q r => if lt r q then r else q) p) := by
  intro ps
  induction ps with
  | nil =>
    intro p
    refine ⟨List.mem_cons_self _ _, ?_⟩
    intro q hq
    rw [List.mem_singleton] at hq
    subst hq
    exact lt_irrefl _
  | cons r ps ih =>
    intro p
    by_cases hrp : lt r p = true
    · -- the new head `r` improves on `p`
      have hstep : (r :: ps).foldl (fun q s => if lt s q then s else q) p =
          ps.foldl (fun q s => if lt s q then s else q) r := by
        simp only [List.foldl_cons, hrp, if_true]
      obtain ⟨ihmem, ihmin⟩ := ih r
      rw [hstep]
      refine ⟨List.mem_cons_of_mem _ ihmem, ?_⟩
      intro q hq
      rcases List.mem_cons.mp hq with hq1 | hq2
      · rw [hq1]
        intro hc
        exact ihmin r (List.mem_cons_self _ _) (lt_trans ((hlt r p).mp hrp) hc)
      · exact ihmin q hq2
    · -- the new head `r` does not improve on `p`
      have hstep : (r :: ps).foldl (fun q s => if lt s q then s else q) p =
          ps.foldl (fun q s => if lt s q then s else q) p := by
        simp [List.foldl_cons, hrp]
      obtain ⟨ihmem, ihmin⟩ := ih p
      rw [hstep]
      constructor
      · rcases List.mem_cons.mp ihmem with h | h
        · rw [h]
          exact List.mem_cons_self _ _
        · exact List.mem_cons_of_mem _ (List.mem_cons_of_mem _ h)
      · intro q hq
        rcases List.mem_cons.mp hq with hq1 | hq2
        · rw [hq1]
          exact ihmin p (List.mem_cons_self _ _)
        rcases List.mem_cons.mp hq2 with hq3 | hq4
        · rw [hq3]
          intro hc
          have hpr : ¬ m r < m p := fun hc2 => hrp ((hlt r p).mpr hc2)
          exact ihmin p (List.mem_cons_self _ _)
            (lt_of_le_of_lt (le_of_not_lt hpr) hc)
        · exact ihmin q (List.mem_cons_of_mem _ hq4)

theorem pickMinBy_spec {κ : Type} [LinearOrder κ] (m : Nat × Nat → κ)
    (lt : Nat × Nat → Nat × Nat → Bool)
    (hlt : ∀ p q, lt p q = true ↔ m p < m q) {l : List (Nat × Nat)} {p : Nat × Nat}
    (h : pickMinBy lt l = some p) :
    p ∈ l ∧ ∀ q ∈ l, ¬ m q < m p := by
  match l, h with
  | a :: as, h =>
    rw [pickMinBy, Option.some.injEq] at h
    obtain ⟨hmem, hmin⟩ := foldl_min_spec m lt hlt as a
    rw [h] at hmem hmin
    exact ⟨hmem, hmin⟩

/-- What `bestCandidate` returns is an eligible pair that is minimal for the
(priority-key) order. -/
theorem bestCandidate_spec {edges : List (Nat × Nat)} {feats : List (List Frac)}
    {labels : List Nat} {a b : Nat}
    (h : bestCandidate edges feats labels = some (a, b)) :
    (a, b) ∈ eligiblePairs edges labels ∧
      ∀ q ∈ eligiblePairs edges labels,
        ¬ keyVal (candKey feats labels q) < keyVal (candKey feats labels (a, b)) := by
  exact pickMinBy_spec (fun p => keyVal (candKey feats labels p)) _
    (fun p q => keyLt_iff _ _) h

/-! ## Lemmas about the merging loop -/

/-- Any property of the partition state preserved by each merge step holds
of the final partition. -/
theorem solveLoop_inv (target : Nat) (edges : List (Nat × Nat))
    (feats : List (List Frac)) (P : List Nat → Prop)
    (hstep : ∀ labels a b, bestCandidate edges feats labels = some (a, b) →
      P labels → P (mergeLabels labels a b)) :
    ∀ fuel labels log, P labels →
      P (finalLabels (solveLoop target edges feats fuel labels log)) := by
  intro fuel
  induction fuel with
  | zero =>
    intro labels log h
    simpa [solveLoop, finalLabels] using h
  | succ fuel ih =>
    intro labels log h
    rw [solveLoop]
    by_cases hc : activeCount labels = target
    · simpa [hc, finalLabels] using h
    · rw [if_neg hc]
      cases hbc : bestCandidate edges feats labels with
      | none => simpa [finalLabels] using h
      | some p =>
        obtain ⟨a, b⟩ := p
        exact ih _ _ (hstep _ _ _ hbc h)

/-- The loop returns `reached` only when the active cluster count equals the
target. -/
theorem solveLoop_reached (target : Nat) (edges : List (Nat × Nat))
    (feats : List (List Frac)) :
    ∀ fuel labels log L lg,
      solveLoop target edges feats fuel labels log = .reached L lg →
      activeCount L = target := by
  intro fuel
  induction fuel with
  | zero =>
    intro labels log L lg h
    simp [solveLoop] at h
  | succ fuel ih =>
    intro labels log L lg h
    rw [solveLoop] at h
    by_cases hc : activeCount labels = target
    · rw [if_pos hc] at h
      cases h
      exact hc
    · rw [if_neg hc] at h
      cases hbc : bestCandidate edges feats labels with
      | none => rw [hbc] at h; cases h
      | some p =>
        obtain ⟨a, b⟩ := p
        rw [hbc] at h
        exact ih _ _ _ _ h

/-- The loop preserves the length of the label list. -/
theorem solveLoop_length (target : Nat) (edges : List (Nat × Nat))
    (feats : List (List Frac)) (fuel : Nat) (labels : List Nat)
    (log : List (Nat × Nat × Frac)) :
    (finalLabels (solveLoop target edges feats fuel labels log)).length =
      labels.length := by
  exact solveLoop_inv target edges feats (fun l => l.length = labels.length)
    (fun l a b _ hl => by
      show (mergeLabels l a b).length = labels.length
      rw [mergeLabels_length]; exact hl) fuel labels log rfl

/-- The chosen candidate names two distinct active clusters. -/
theorem bestCandidate_active {edges : List (Nat × Nat)} {feats : List (List Frac)}
    {labels : List Nat} {a b : Nat}
    (h : bestCandidate edges feats labels = some (a, b)) :
    a ∈ labels ∧ b ∈ labels ∧ a ≠ b := by
  obtain ⟨hmem, -⟩ := bestCandidate_spec h
  obtain ⟨ha, hb, hlt, -⟩ := mem_eligiblePairs.mp hmem
  exact ⟨List.mem_dedup.mp ha, List.mem_dedup.mp hb, Nat.ne_of_lt hlt⟩

/-- With enough fuel, a run whose state never hits the target ends in a
genuine `exhausted` state: it reports the achieved partition and count, and
no eligible merge remains. -/
theorem solveLoop_exhausted (target : Nat) (edges : List (Nat × Nat))
    (feats : List (List Frac)) (P : List Nat → Prop)
    (hstep : ∀ labels a b, bestCandidate edges feats labels = some (a, b) →
      P labels → P (mergeLabels labels a b))
    (hne : ∀ labels, P labels → activeCount labels ≠ target)
    (hnonempty : ∀ labels, P labels → labels ≠ []) :
    ∀ fuel labels log, P labels → activeCount labels ≤ fuel →
      ∃ L lg, solveLoop target edges feats fuel labels log =
          .exhausted L (activeCount L) lg ∧
        bestCandidate edges feats L = none ∧ P L := by
  intro fuel
  induction fuel with
  | zero =>
    intro labels log hP hfuel
    have h1 := activeCount_pos (hnonempty labels hP)
    omega
  | succ fuel ih =>
    intro labels log hP hfuel
    rw [solveLoop, if_neg (hne labels hP)]
    cases hbc : bestCandidate edges feats labels with
    | none => exact ⟨labels, log, rfl, hbc, hP⟩
    | some p =>
      obtain ⟨a, b⟩ := p
      obtain ⟨ha, hb, hab⟩ := bestCandidate_active hbc
      have hcount := activeCount_mergeLabels ha hb hab
      have hpos := activeCount_pos (hnonempty labels hP)
      exact ih (mergeLabels labels a b) _ (hstep _ _ _ hbc hP) (by omega)

/-! ## Connectivity of clusters (claim C1) -/

theorem reachIn_mono {edges : List (Nat × Nat)} {S T : Nat → Prop}
    (h : ∀ p, S p → T p) {i j : Nat} :
    ReachIn edges S i j → ReachIn edges T i j :=
  Relation.ReflTransGen.mono (fun p q hpq => ⟨h p hpq.1, h q hpq.2.1, hpq.2.2⟩)

/-- Singleton clusters are trivially connected. -/
theorem clusterConnected_range (edges : List (Nat × Nat)) (n : Nat) :
    clusterConnected edges (List.range n) := by
  intro i j hi hj heq
  rw [List.length_range] at hi hj
  rw [getD_range hi, getD_range hj] at heq
  subst heq
  exact Relation.ReflTransGen.refl

/-- A merge of two adjacent connected clusters yields a connected cluster,
and leaves every other cluster untouched. -/
theorem clusterConnected_merge {edges : List (Nat × Nat)}
    {feats : List (List Frac)} {labels : List Nat} {a b : Nat}
    (hbc : bestCandidate edges feats labels = some (a, b))
    (hcc : clusterConnected edges labels) :
    clusterConnected edges (mergeLabels labels a b) := by
  obtain ⟨hmem, -⟩ := bestCandidate_spec hbc
  obtain ⟨had, hbd, hltab, hadj⟩ := mem_eligiblePairs.mp hmem
  have hab : a ≠ b := Nat.ne_of_lt hltab
  obtain ⟨i0, ⟨hi0len, hi0lab⟩, j0, ⟨hj0len, hj0lab⟩, hadj0⟩ :=
    clustersAdjacent_iff.mp hadj
  intro i j hi hj heq
  rw [mergeLabels_length] at hi hj
  have hlen : (mergeLabels labels a b).length = labels.length :=
    mergeLabels_length labels a b
  have hget : ∀ p, p < labels.length →
      (mergeLabels labels a b).getD p 0 =
        if labels.getD p 0 = b then a else labels.getD p 0 :=
    fun p hp => mergeLabels_getD hp a b
  have hni := hget i hi
  have hnj := hget j hj
  -- the old cluster of any value collapsing onto the new cluster of `i` is
  -- contained in the new cluster of `i`
  have hsubU : ∀ c, (if c = b then a else c) = (mergeLabels labels a b).getD i 0 →
      ∀ p, p < labels.length → labels.getD p 0 = c →
        p < (mergeLabels labels a b).length ∧
          (mergeLabels labels a b).getD p 0 = (mergeLabels labels a b).getD i 0 := by
    intro c hc p hp hpc
    refine ⟨hlen ▸ hp, ?_⟩
    rw [hget p hp, hpc, hc]
  -- connectivity of an old cluster, transported into the new cluster of `i`
  have hclus : ∀ x y, x < labels.length → y < labels.length →
      labels.getD x 0 = labels.getD y 0 →
      (if labels.getD x 0 = b then a else labels.getD x 0) =
        (mergeLabels labels a b).getD i 0 →
      ReachIn edges
        (fun p => p < (mergeLabels labels a b).length ∧
          (mergeLabels labels a b).getD p 0 = (mergeLabels labels a b).getD i 0)
        x y := by
    intro x y hx hy hxy hcond
    refine reachIn_mono ?_ (hcc x y hx hy hxy)
    intro p hp
    exact hsubU (labels.getD x 0) hcond p hp.1 hp.2
  by_cases hod : labels.getD i 0 = labels.getD j 0
  · exact hclus i j hi hj hod hni.symm
  · -- the two endpoints lie in distinct old clusters collapsed to the new
    -- cluster of `i`: one held label `a`, the other label `b`
    have hfeq : (if labels.getD i 0 = b then a else labels.getD i 0) =
        (if labels.getD j 0 = b then a else labels.getD j 0) := by
      rw [← hni, ← hnj, heq]
    have hcases : (labels.getD i 0 = b ∧ labels.getD j 0 = a) ∨
        (labels.getD i 0 = a ∧ labels.getD j 0 = b) := by
      by_cases h1 : labels.getD i 0 = b <;> by_cases h2 : labels.getD j 0 = b
      · exact absurd (h1.trans h2.symm) hod
      · rw [if_pos h1, if_neg h2] at hfeq
        exact Or.inl ⟨h1, hfeq.symm⟩
      · rw [if_neg h1, if_pos h2] at hfeq
        exact Or.inr ⟨hfeq, h2⟩
      · rw [if_neg h1, if_neg h2] at hfeq
        exact absurd hfeq hod
    have hnia : (mergeLabels labels a b).getD i 0 = a := by
      rcases hcases with ⟨h1, -⟩ | ⟨h1, -⟩
      · rw [hni, if_pos h1]
      · rw [hni, h1, if_neg hab]
    have hUi0 : i0 < (mergeLabels labels a b).length ∧
        (mergeLabels labels a b).getD i0 0 = (mergeLabels labels a b).getD i 0 :=
      hsubU a (by rw [if_neg hab, hnia]) i0 hi0len hi0lab
    have hUj0 : j0 < (mergeLabels labels a b).length ∧
        (mergeLabels labels a b).getD j0 0 = (mergeLabels labels a b).getD i 0 :=
      hsubU b (by rw [if_pos rfl, hnia]) j0 hj0len hj0lab
    rcases hcases with ⟨h1, h2⟩ | ⟨h1, h2⟩
    · -- `i` was in cluster `b`, `j` in cluster `a`
      have s1 := hclus i j0 hi hj0len (h1.trans hj0lab.symm) hni.symm
      have s3 := hclus i0 j hi0len hj (hi0lab.trans h2.symm)
        (by rw [hi0lab, if_neg hab, hnia])
      have s2 : ReachIn edges
          (fun p => p < (mergeLabels labels a b).length ∧
            (mergeLabels labels a b).getD p 0 = (mergeLabels labels a b).getD i 0)
          j0 i0 :=
        Relation.ReflTransGen.single ⟨hUj0, hUi0, by rw [adjB_symm]; exact hadj0⟩
      exact (s1.trans s2).trans s3
    · -- `i` was in cluster `a`, `j` in cluster `b`
      have s1 := hclus i i0 hi hi0len (h1.trans hi0lab.symm) hni.symm
      have s3 := hclus j0 j hj0len hj (hj0lab.trans h2.symm)
        (by rw [hj0lab, if_pos rfl, hnia])
      have s2 : ReachIn edges
          (fun p => p < (mergeLabels labels a b).length ∧
            (mergeLabels labels a b).getD p 0 = (mergeLabels labels a b).getD i 0)
          i0 j0 :=
        Relation.ReflTransGen.single ⟨hUi0, hUj0, hadj0⟩
      exact (s1.trans s2).trans s3

/-- The engine's final partition has connected clusters. -/
theorem enginePartition_connected (edges : List (Nat × Nat))
    (feats : List (List Frac)) (target n : Nat) :
    clusterConnected edges (enginePartition edges feats target n) :=
  solveLoop_inv target edges feats (clusterConnected edges)
    (fun _ _ _ hbc hcc => clusterConnected_merge hbc hcc)
    n (List.range n) [] (clusterConnected_range edges n)

/-! ## Component counting (claim C3) -/

/-- A merge step preserves constancy of a separation on clusters: the two
merged clusters were adjacent, so they carried the same `g`-value. -/
theorem labelConst_merge {edges : List (Nat × Nat)} {feats : List (List Frac)}
    {labels : List Nat} {a b : Nat} {g : Nat → Nat}
    (hresp : respectsEdges edges labels.length g)
    (hbc : bestCandidate edges feats labels = some (a, b))
    (hconst : labelConst g labels) :
    labelConst g (mergeLabels labels a b) := by
  obtain ⟨hmem, -⟩ := bestCandidate_spec hbc
  obtain ⟨had, hbd, hltab, hadj⟩ := mem_eligiblePairs.mp hmem
  have hab : a ≠ b := Nat.ne_of_lt hltab
  obtain ⟨i0, ⟨hi0len, hi0lab⟩, j0, ⟨hj0len, hj0lab⟩, hadj0⟩ :=
    clustersAdjacent_iff.mp hadj
  have hg0 : g i0 = g j0 :=
    hresp i0 (List.mem_range.mpr hi0len) j0 (List.mem_range.mpr hj0len) hadj0
  intro p q hp hq heq
  rw [mergeLabels_length] at hp hq
  rw [mergeLabels_getD hp, mergeLabels_getD hq] at heq
  by_cases hod : labels.getD p 0 = labels.getD q 0
  · exact hconst p q hp hq hod
  · by_cases h1 : labels.getD p 0 = b <;> by_cases h2 : labels.getD q 0 = b
    · exact absurd (h1.trans h2.symm) hod
    · rw [if_pos h1, if_neg h2] at heq
      have hgp : g p = g j0 := hconst p j0 hp hj0len (h1.trans hj0lab.symm)
      have hgq : g q = g i0 := hconst q i0 hq hi0len (heq.symm.trans hi0lab.symm)
      rw [hgp, hgq, hg0]
    · rw [if_neg h1, if_pos h2] at heq
      have hgp : g p = g i0 := hconst p i0 hp hi0len (heq.trans hi0lab.symm)
      have hgq : g q = g j0 := hconst q j0 hq hj0len (h2.trans hj0lab.symm)
      rw [hgp, hgq, hg0]
    · rw [if_neg h1, if_neg h2] at heq
      exact absurd heq hod

/-- When a separation `g` is constant on clusters, the number of distinct
`g`-values bounds the number of active clusters from below. -/
theorem card_le_activeCount {g : Nat → Nat} {labels : List Nat} {n : Nat}
    (hlen : labels.length = n) (hconst : labelConst g labels) :
    ((List.range n).map g).toFinset.card ≤ activeCount labels := by
  apply Finset.card_le_card_of_surjOn (fun c => g (List.indexOf c labels))
  intro gv hgv
  simp only [Finset.coe_sort_coe, List.coe_toFinset, List.mem_map,
    List.mem_range, Set.mem_setOf_eq] at hgv
  obtain ⟨p, hp, hgp⟩ := hgv
  have hplen : p < labels.length := by omega
  have hcmem : labels.getD p 0 ∈ labels := getD_mem hplen
  have hidx : List.indexOf (labels.getD p 0) labels < labels.length :=
    List.indexOf_lt_length.mpr hcmem
  refine Set.mem_image _ _ _ |>.mpr ⟨labels.getD p 0, ?_, ?_⟩
  · simp only [Finset.coe_sort_coe, List.coe_toFinset, Set.mem_setOf_eq]
    exact hcmem
  · have hgetidx : labels.getD (List.indexOf (labels.getD p 0) labels) 0 =
        labels.getD p 0 := by
      rw [List.getD_eq_getElem?_getD, List.getElem?_eq_getElem hidx]
      exact List.getElem_indexOf hidx
    have := hconst (List.indexOf (labels.getD p 0) labels) p hidx hplen hgetidx
    rw [this, hgp]

/-! ## Inversion of a successful full run -/

theorem ward_run_ok {coords : List (Frac × Frac)} {feats : List (List Frac)}
    {target k : Nat} {L : List Nat} {lg : List (Nat × Nat × Frac)}
    (h : ward_run coords feats target k = .ok (L, lg)) :
    solveLoop target (knnEdges coords k) feats coords.length
      (List.range coords.length) [] = .reached L lg := by
  by_cases h1 : target = 0 ∨ coords.length < target ∨ k = 0 ∨ coords.length ≤ k
  · rw [ward_run, if_pos h1] at h
    simp at h
  · rw [ward_run, if_neg h1] at h
    by_cases h2 : coords.length < 2
    · rw [if_pos h2] at h
      simp at h
    · rw [if_neg h2] at h
      cases hsl : solveLoop target (knnEdges coords k) feats coords.length
          (List.range coords.length) [] with
      | reached labels log =>
        rw [hsl] at h
        simp only [wardResult, Except.ok.injEq, Prod.mk.injEq] at h
        rw [h.1, h.2]
      | exhausted labels achieved log =>
        rw [hsl] at h
        simp [wardResult] at h

theorem ward_run_ok_length {coords : List (Frac × Frac)} {feats : List (List Frac)}
    {target k : Nat} {L : List Nat} {lg : List (Nat × Nat × Frac)}
    (h : ward_run coords feats target k = .ok (L, lg)) :
    L.length = coords.length := by
  have hsl := ward_run_ok h
  have := solveLoop_length target (knnEdges coords k) feats coords.length
    (List.range coords.length) []
  rw [hsl] at this
  simpa [finalLabels] using this

/-! ## The claims -/

/-- C1: for every input (points, adjacency graph, configuration), every
cluster of the produced partition is connected in the original adjacency
graph: any two points carrying the same final label are joined by a path of
adjacency edges that stays inside their cluster, so no final cluster can be
split into two groups with no adjacency edge between them. -/
theorem claim_C1 (edges : List (Nat × Nat)) (feats : List (List Frac))
    (target n i j : Nat) (hi : i < n) (hj : j < n)
    (heq : (enginePartition edges feats target n).getD i 0 =
      (enginePartition edges feats target n).getD j 0) :
    ReachIn edges
      (fun p => p < n ∧ (enginePartition edges feats target n).getD p 0 =
        (enginePartition edges feats target n).getD i 0) i j := by
  have hlen : (enginePartition edges feats target n).length = n := by
    rw [enginePartition, solveLoop_length, List.length_range]
  have h := enginePartition_connected edges feats target n i j
    (by rw [hlen]; exact hi) (by rw [hlen]; exact hj) heq
  exact reachIn_mono (fun p hp => ⟨by rw [← hlen]; exact hp.1, hp.2⟩) h

theorem claim_C1_witness :
    ReachIn (knnEdges demoCoords 1)
      (fun p => p < 4 ∧
        (enginePartition (knnEdges demoCoords 1) demoFeats 2 4).getD p 0 =
          (enginePartition (knnEdges demoCoords 1) demoFeats 2 4).getD 0 0) 0 1 :=
  claim_C1 (knnEdges demoCoords 1) demoFeats 2 4 0 1 (by decide) (by decide)
    (by decide)

/-- C2: whenever the full run reaches the target terminal state (returns a
partition rather than an error), the number of distinct cluster labels in
the returned partition is exactly the requested number of clusters. -/
theorem claim_C2 (coords : List (Frac × Frac)) (feats : List (List Frac))
    (target k : Nat) (L : List Nat) (lg : List (Nat × Nat × Frac))
    (h : ward_run coords feats target k = .ok (L, lg)) :
    activeCount L = target :=
  solveLoop_reached target (knnEdges coords k) feats coords.length
    (List.range coords.length) [] L lg (ward_run_ok h)

theorem claim_C2_witness : activeCount [0, 0, 2, 2] = 2 :=
  claim_C2 demoCoords demoFeats 2 1 [0, 0, 2, 2]
    [(0, 1, ⟨1, 1⟩), (2, 3, ⟨1, 1⟩)] rfl

/-- C4: the returned partition is a total function on the ingested points:
the label list has one entry per point, and every point index below `n`
belongs to exactly one active cluster. -/
theorem claim_C4 (edges : List (Nat × Nat)) (feats : List (List Frac))
    (target n i : Nat) (hi : i < n) :
    (enginePartition edges feats target n).length = n ∧
      ∃! c, c ∈ clusterIds (enginePartition edges feats target n) ∧
        i ∈ members (enginePartition edges feats target n) c := by
  have hlen : (enginePartition edges feats target n).length = n := by
    rw [enginePartition, solveLoop_length, List.length_range]
  refine ⟨hlen, (enginePartition edges feats target n).getD i 0, ⟨?_, ?_⟩, ?_⟩
  · exact List.mem_dedup.mpr (getD_mem (by rw [hlen]; exact hi))
  · exact mem_members.mpr ⟨by rw [hlen]; exact hi, rfl⟩
  · rintro c ⟨-, hc⟩
    exact ((mem_members.mp hc).2).symm

theorem claim_C4_witness :
    (enginePartition (knnEdges demoCoords 1) demoFeats 2 4).length = 4 ∧
      ∃! c, c ∈ clusterIds (enginePartition (knnEdges demoCoords 1) demoFeats 2 4) ∧
        0 ∈ members (enginePartition (knnEdges demoCoords 1) demoFeats 2 4) c :=
  claim_C4 (knnEdges demoCoords 1) demoFeats 2 4 0 (by decide)

/-- C8: requesting exactly as many clusters as there are points makes the
engine stop immediately: zero merges are performed (empty merge log) and the
identity partition is returned, every point its own cluster. -/
theorem claim_C8 (coords : List (Frac × Frac)) (feats : List (List Frac))
    (k : Nat) (h2 : 2 ≤ coords.length) (hk1 : 1 ≤ k) (hkn : k < coords.length) :
    ward_run coords feats coords.length k = .ok (List.range coords.length, []) := by
  rw [ward_run, if_neg (by omega), if_neg (by omega)]
  obtain ⟨m, hm⟩ : ∃ m, coords.length = m + 1 := ⟨coords.length - 1, by omega⟩
  rw [hm, solveLoop, if_pos (activeCount_range (m + 1))]
  rfl

theorem claim_C8_witness :
    ward_run demoCoords demoFeats demoCoords.length 1 =
      .ok (List.range demoCoords.length, []) :=
  claim_C8 demoCoords demoFeats 1 (by decide) (by decide) (by decide)

/-- C3: when the adjacency graph has more connected components than the
requested number of clusters (witnessed by a separation `g` that is constant
across every edge yet takes more than `target` distinct values on the
points), the engine stops in the exhausted state and reports
`DisconnectedGraphError` carrying the achieved partition and the achieved
cluster count, which still exceeds the target and admits no further eligible
merge; and the engine never merges two clusters that are not adjacent in the
graph: every candidate it ever selects is a pair of adjacent clusters. -/
theorem claim_C3 (coords : List (Frac × Frac)) (feats : List (List Frac))
    (target k : Nat) (g : Nat → Nat)
    (htarget : 1 ≤ target) (htn : target ≤ coords.length)
    (hk1 : 1 ≤ k) (hkn : k < coords.length)
    (hresp : respectsEdges (knnEdges coords k) coords.length g)
    (hcard : target < ((List.range coords.length).map g).toFinset.card) :
    (∃ L, ward_run coords feats target k =
        .error (.disconnectedGraph L (activeCount L)) ∧
      target < activeCount L ∧
      bestCandidate (knnEdges coords k) feats L = none) ∧
    ∀ labels a b, bestCandidate (knnEdges coords k) feats labels = some (a, b) →
      clustersAdjacent (knnEdges coords k) labels a b = true := by
  constructor
  · have hrun := solveLoop_exhausted target (knnEdges coords k) feats
      (fun labels => labels.length = coords.length ∧ labelConst g labels)
      (fun labels a b hbc hP =>
        ⟨by rw [mergeLabels_length]; exact hP.1,
          labelConst_merge (by rw [hP.1]; exact hresp) hbc hP.2⟩)
      (fun labels hP => by
        have := card_le_activeCount hP.1 hP.2
        omega)
      (fun labels hP => by
        have : 0 < labels.length := by omega
        exact List.ne_nil_of_length_pos this)
      coords.length (List.range coords.length) []
      ⟨List.length_range coords.length, by
        intro p q hp hq hpq
        rw [List.length_range] at hp hq
        rw [getD_range hp, getD_range hq] at hpq
        rw [hpq]⟩
      (le_of_eq (activeCount_range coords.length))
    obtain ⟨L, lg, hsl, hnone, hP⟩ := hrun
    refine ⟨L, ?_, ?_, hnone⟩
    · rw [ward_run, if_neg (by omega), if_neg (by omega), hsl]
      rfl
    · have := card_le_activeCount hP.1 hP.2
      omega
  · intro labels a b hbc
    exact (mem_eligiblePairs.mp (bestCandidate_spec hbc).1).2.2.2

theorem claim_C3_witness :
    (∃ L, ward_run demoCoords demoFeats 1 1 =
        .error (.disconnectedGraph L (activeCount L)) ∧
      1 < activeCount L ∧
      bestCandidate (knnEdges demoCoords 1) demoFeats L = none) ∧
    ∀ labels a b,
      bestCandidate (knnEdges demoCoords 1) demoFeats labels = some (a, b) →
      clustersAdjacent (knnEdges demoCoords 1) labels a b = true :=
  claim_C3 demoCoords demoFeats 1 1 (fun p => p / 2) (by decide) (by decide)
    (by decide) (by decide) (by simp only [respectsEdges]; decide) (by decide)

/-- C5: the engine is deterministic — two runs on identical point data and
identical configuration return identical partitions and identical merge
logs — and ties in Ward cost are broken by ascending pair of cluster ids:
whenever the selected candidate's cost equals that of any other eligible
pair, the selected id pair precedes it lexicographically. -/
theorem claim_C5 :
    (∀ (c1 c2 : List (Frac × Frac)) (f1 f2 : List (List Frac)) (t1 t2 k1 k2 : Nat),
      c1 = c2 → f1 = f2 → t1 = t2 → k1 = k2 →
        ward_run c1 f1 t1 k1 = ward_run c2 f2 t2 k2) ∧
    ∀ (edges : List (Nat × Nat)) (feats : List (List Frac)) (labels : List Nat)
      (a b : Nat), bestCandidate edges feats labels = some (a, b) →
      ∀ p ∈ eligiblePairs edges labels,
        Frac.beq (wardCost feats labels p.1 p.2) (wardCost feats labels a b) = true →
        a < p.1 ∨ (a = p.1 ∧ b ≤ p.2) := by
  constructor
  · rintro c1 c2 f1 f2 t1 t2 k1 k2 rfl rfl rfl rfl
    rfl
  · intro edges feats labels a b hbc p hp hbeq
    obtain ⟨-, hmin⟩ := bestCandidate_spec hbc
    have hnot := hmin p hp
    rw [Frac.beq_iff] at hbeq
    by_contra hcon
    push_neg at hcon
    apply hnot
    rw [keyVal, keyVal, candKey, candKey, Prod.Lex.lt_iff]
    dsimp only
    right
    refine ⟨hbeq, ?_⟩
    rw [Prod.Lex.lt_iff]
    dsimp only
    rcases Nat.lt_or_ge p.1 a with hlt | hge
    · exact Or.inl hlt
    · have h1 : a = p.1 := by omega
      have h2 := hcon.2 h1
      exact Or.inr ⟨h1.symm, by omega⟩

theorem claim_C5_witness :
    ward_run demoCoords demoFeats 2 1 = ward_run demoCoords demoFeats 2 1 ∧
      (0 < 2 ∨ (0 = 2 ∧ 1 ≤ 3)) :=
  ⟨claim_C5.1 demoCoords demoCoords demoFeats demoFeats 2 2 1 1 rfl rfl rfl rfl,
    claim_C5.2 (knnEdges demoCoords 1) demoFeats [0, 1, 2, 3] 0 1 (by decide)
      (2, 3) (by decide) (by decide)⟩

/-- C6: the AdjacencyGraph produced by the builder is symmetric — for points
`i`, `j` of the data set, `j` is in the neighbour set of `i` exactly when
`i` is in the neighbour set of `j`, even though the underlying raw
k-nearest-neighbour relation is asymmetric — and every point appears as a
key of the graph. -/
theorem claim_C6 (coords : List (Frac × Frac)) (k i j : Nat)
    (hi : i < coords.length) (hj : j < coords.length) :
    (knnGraph coords k).map Prod.fst = List.range coords.length ∧
      (j ∈ knnNeighbors coords k i ↔ i ∈ knnNeighbors coords k j) := by
  constructor
  · simp only [knnGraph, List.map_map]
    have hcomp : (Prod.fst ∘ fun i => (i, knnNeighbors coords k i)) = id := rfl
    rw [hcomp, List.map_id]
  · simp only [knnNeighbors, List.mem_filter, List.mem_range, Bool.or_eq_true]
    constructor
    · rintro ⟨-, h⟩
      exact ⟨hi, h.symm⟩
    · rintro ⟨-, h⟩
      exact ⟨hj, h.symm⟩

theorem claim_C6_witness :
    (knnGraph demoCoords 1).map Prod.fst = List.range demoCoords.length ∧
      (1 ∈ knnNeighbors demoCoords 1 0 ↔ 0 ∈ knnNeighbors demoCoords 1 1) :=
  claim_C6 demoCoords 1 0 1 (by decide) (by decide)

/-- C7: construction fails with `InvalidParameterError` exactly when the
configuration is out of range — the target is zero, the target exceeds the
point count, or the neighbour count lies outside `[1, pointCount − 1]` —
and this is decided before any merging, so no engine state accompanies the
error. -/
theorem claim_C7 (coords : List (Frac × Frac)) (feats : List (List Frac))
    (target k : Nat) :
    ward_run coords feats target k = .error .invalidParameter ↔
      (target = 0 ∨ coords.length < target ∨ k = 0 ∨ coords.length ≤ k) := by
  constructor
  · intro h
    by_contra hv
    rw [ward_run, if_neg hv] at h
    by_cases h2 : coords.length < 2
    · rw [if_pos h2] at h
      simp at h
    · rw [if_neg h2] at h
      cases hsl : solveLoop target (knnEdges coords k) feats coords.length
          (List.range coords.length) [] with
      | reached labels log =>
        rw [hsl] at h
        simp [wardResult] at h
      | exhausted labels achieved log =>
        rw [hsl] at h
        simp [wardResult] at h
  · intro h
    rw [ward_run, if_pos h]

/-- C9: the feature space and the adjacency space differ.  The Ward merge
costs are computed over the standardized triple (projected x, projected y,
trx_count) while the k-nearest-neighbour connectivity graph is built from
the unscaled projected geometry; on the concrete `c9` data set the graph
builder links point 0 to point 1 (its geometric nearest neighbour), yet in
the scaled clustering feature space the nearest point to point 0 is
point 2. -/
theorem claim_C9 :
    knnRaw c9coords 1 0 = [1] ∧
      nearestByScaled c9cols 3 0 = some 2 ∧ (1 : Nat) ≠ 2 := by
  refine ⟨by decide, by decide, by decide⟩

/-- C10: rows with a missing `trx_count`, `latitude` or `longitude` are
dropped before clustering; the pipeline halts with an error when fewer than
5 valid rows remain; and a returned label mapping covers exactly the
retained rows — one labelled entry per retained row, in order, and no
dropped row ever appears in it. -/
theorem claim_C10 (rows : List Row) (target k : Nat) :
    ((dfCleaned rows).length < 5 →
      segmentApp rows target k = .error .insufficientData) ∧
    ∀ out, segmentApp rows target k = .ok out →
      out.map Prod.fst = dfCleaned rows ∧
      ∀ r ∈ rows, rowValid r = false → r ∉ out.map Prod.fst := by
  constructor
  · intro h
    rw [segmentApp, if_pos h]
  · intro out hout
    rw [segmentApp] at hout
    by_cases h5 : (dfCleaned rows).length < 5
    · rw [if_pos h5] at hout
      simp at hout
    · rw [if_neg h5] at hout
      cases hwr : ward_run ((dfCleaned rows).map rowCoord)
          ((dfCleaned rows).map rowFeat) target k with
      | error e =>
        rw [hwr] at hout
        simp [attachLabels] at hout
      | ok res =>
        obtain ⟨labels, lg⟩ := res
        rw [hwr] at hout
        simp only [attachLabels, Except.ok.injEq] at hout
        subst hout
        have hlablen : (dfCleaned rows).length ≤ labels.length := by
          have := ward_run_ok_length hwr
          rw [List.length_map] at this
          omega
        have hfst : ((dfCleaned rows).zip labels).map Prod.fst = dfCleaned rows :=
          List.map_fst_zip _ _ hlablen
        refine ⟨hfst, ?_⟩
        intro r hr hinvalid hmem
        rw [hfst] at hmem
        have := (List.mem_filter.mp hmem).2
        rw [hinvalid] at this
        cases this

theorem claim_C10_witness :
    ((dfCleaned demoRows).zip [0, 0, 0, 3, 3, 3]).map Prod.fst =
        dfCleaned demoRows ∧
      (⟨99, none, some (Frac.ofInt 0), some (Frac.ofInt 5)⟩ : Row) ∉
        (((dfCleaned demoRows).zip [0, 0, 0, 3, 3, 3]).map Prod.fst) :=
  ⟨((claim_C10 demoRows 2 1).2 ((dfCleaned demoRows).zip [0, 0, 0, 3, 3, 3])
      rfl).1,
    ((claim_C10 demoRows 2 1).2 ((dfCleaned demoRows).zip [0, 0, 0, 3, 3, 3])
      rfl).2 ⟨99, none, some (Frac.ofInt 0), some (Frac.ofInt 5)⟩ (by decide)
      (by decide)⟩
